import Mathlib

/-
Verification of the symmetry core of JDFTx (src/jdftx/electronic/Symmetries.cpp).

The data model and the operations are translated from the C++ source:
integer symmetry matrices act on fractional coordinates (rationals here,
idealizing the double-precision vectors), k-points carry rational weights,
and fallible routines (which call die(...) in the source) return Option or
Except values.  Helpers from the JDFTx core that are not part of this
repository excerpt (circDistanceSquared, symmThresholdSq, the grid index
maps) are either taken as parameters or modelled from the specification,
as marked on each definition.
-/

namespace JdftxSym

/-- Three-component vector, mirroring `vector3<>` of the JDFTx core. -/
structure Vec3 (α : Type) where
  x : α
  y : α
  z : α
deriving DecidableEq

/-- Three-by-three matrix as three rows, mirroring `matrix3<>` of the JDFTx core. -/
structure Mat3 (α : Type) where
  r0 : Vec3 α
  r1 : Vec3 α
  r2 : Vec3 α
deriving DecidableEq

instance {α : Type} [Add α] : Add (Vec3 α) :=
  ⟨fun a b => ⟨a.x + b.x, a.y + b.y, a.z + b.z⟩⟩

instance {α : Type} [Sub α] : Sub (Vec3 α) :=
  ⟨fun a b => ⟨a.x - b.x, a.y - b.y, a.z - b.z⟩⟩

/-- Component of a vector selected by a `Fin 3` index. -/
def Vec3.get {α : Type} (v : Vec3 α) : Fin 3 → α
  | 0 => v.x
  | 1 => v.y
  | 2 => v.z

/-- Row of a matrix selected by a `Fin 3` index. -/
def Mat3.row {α : Type} (m : Mat3 α) : Fin 3 → Vec3 α
  | 0 => m.r0
  | 1 => m.r1
  | 2 => m.r2

/-- Entry `m(i,j)` of a matrix. -/
def Mat3.entry {α : Type} (m : Mat3 α) (i j : Fin 3) : α :=
  (m.row i).get j

/-- The zero rational vector (`vector3<>()` default-initializes to zero). -/
def vzero : Vec3 ℚ := ⟨0, 0, 0⟩

/-- Cast an integer vector to a rational vector. -/
def Vec3.toQ (v : Vec3 ℤ) : Vec3 ℚ := ⟨(v.x : ℚ), (v.y : ℚ), (v.z : ℚ)⟩

/-- Rational dot product. -/
def dotQ (a b : Vec3 ℚ) : ℚ := a.x * b.x + a.y * b.y + a.z * b.z

/-- Integer dot product. -/
def dotZ (a b : Vec3 ℤ) : ℤ := a.x * b.x + a.y * b.y + a.z * b.z

/-- Integer matrix acting on a rational vector (`matrix3<int> * vector3<>`). -/
def Mat3.mulVecQ (m : Mat3 ℤ) (v : Vec3 ℚ) : Vec3 ℚ :=
  ⟨dotQ m.r0.toQ v, dotQ m.r1.toQ v, dotQ m.r2.toQ v⟩

/-- Integer matrix acting on an integer vector (`matrix3<int> * vector3<int>`). -/
def Mat3.mulVecZ (m : Mat3 ℤ) (v : Vec3 ℤ) : Vec3 ℤ :=
  ⟨dotZ m.r0 v, dotZ m.r1 v, dotZ m.r2 v⟩

/-- Matrix transpose (the `~m` operator of the JDFTx core). -/
def Mat3.transpose (m : Mat3 ℤ) : Mat3 ℤ :=
  ⟨⟨m.r0.x, m.r1.x, m.r2.x⟩, ⟨m.r0.y, m.r1.y, m.r2.y⟩, ⟨m.r0.z, m.r1.z, m.r2.z⟩⟩

/-- Integer scalar times a rational vector (used as `invert * j->k`). -/
def zsmul (n : ℤ) (v : Vec3 ℚ) : Vec3 ℚ := ⟨(n : ℚ) * v.x, (n : ℚ) * v.y, (n : ℚ) * v.z⟩

/-- Rational scalar times a rational vector (used as `0.5*(pos1+pos2)`). -/
def qsmul (c : ℚ) (v : Vec3 ℚ) : Vec3 ℚ := ⟨c * v.x, c * v.y, c * v.z⟩

/-- The identity matrix `matrix3<int>(1,1,1)`. -/
def idMat : Mat3 ℤ := ⟨⟨1, 0, 0⟩, ⟨0, 1, 0⟩, ⟨0, 0, 1⟩⟩

/-- The inversion matrix `-matrix3<int>(1,1,1)`. -/
def negId : Mat3 ℤ := ⟨⟨-1, 0, 0⟩, ⟨0, -1, 0⟩, ⟨0, 0, -1⟩⟩

/-- One coordinate difference wrapped to the nearest periodic image. -/
def wrapQ (d : ℚ) : ℚ := d - (round d : ℤ)

/-- Square of a wrapped coordinate difference. -/
def wrapSq (d : ℚ) : ℚ := wrapQ d * wrapQ d

/-- Modelled from the spec: `circDistanceSquared` of core/LatticeUtils (not under
src/) is the toroidal squared distance, each coordinate difference being wrapped
to the nearest periodic image before squaring. -/
def circDistSq (a b : Vec3 ℚ) : ℚ :=
  wrapSq (a.x - b.x) + wrapSq (a.y - b.y) + wrapSq (a.z - b.z)

/-- Modelled from the spec: the geometric tolerance squared, `symmThresholdSq`
of core/LatticeUtils (not under src/), with `symmThreshold = 1e-4`. -/
def symmThresholdSqQ : ℚ := 1 / 100000000

/-- The concrete closeness test `circDistanceSquared(a,b) < symmThresholdSq`,
built from the modelled distance and threshold; the theorems below are
parametric in the closeness test and use this instance for concrete runs. -/
def circClose (a b : Vec3 ℚ) : Bool := decide (circDistSq a b < symmThresholdSqQ)

/-- A k-point with its weight (the part of `QuantumNumber` used by reduceKmesh). -/
structure QN where
  k : Vec3 ℚ
  weight : ℚ
deriving DecidableEq

/-- The symmetry mode of the `Symmetries` object. -/
inductive SymMode where
  | smNone
  | smAutomatic
  | smManual
deriving DecidableEq

/-- The inner matching test of `Symmetries::reduceKmesh`: some symmetry matrix m
satisfies `circDistanceSquared((~m)*i->k, invert*j->k) < symmThresholdSq`.
The closeness test is a parameter `close`. -/
def matchK (close : Vec3 ℚ → Vec3 ℚ → Bool) (sym : List (Mat3 ℤ)) (invert : ℤ)
    (i j : QN) : Bool :=
  sym.any (fun m => close (m.transpose.mulVecQ i.k) (zsmul invert j.k))

/-- The inner `while(j!=qlist.end())` loop of reduceKmesh: state `i` gobbles up
the weights of all equivalent states among the remaining list, erasing them;
returns the updated state, the surviving remainder (in order), and whether any
merge happened (the source sets `found`, and `usedInversion` when `invert<0`). -/
def gobble (p : QN → QN → Bool) : QN → List QN → QN × List QN × Bool
  | q, [] => (q, [], false)
  | q, j :: tl =>
    if p q j then
      ((gobble p ⟨q.k, q.weight + j.weight⟩ tl).1,
       (gobble p ⟨q.k, q.weight + j.weight⟩ tl).2.1, true)
    else
      ((gobble p q tl).1, j :: (gobble p q tl).2.1, (gobble p q tl).2.2)

/-- One full pass of the `for(Iter i=qlist.begin(); ...)` loop, fuelled for
structural recursion (the list only shrinks, so fuel = initial length is always
enough); returns the reduced list and whether any merge happened. -/
def passKAux (p : QN → QN → Bool) : ℕ → List QN → List QN × Bool
  | _, [] => ([], false)
  | 0, i :: rest => (i :: rest, false)
  | fuel + 1, i :: rest =>
    ((gobble p i rest).1 :: (passKAux p fuel (gobble p i rest).2.1).1,
     (gobble p i rest).2.2 || (passKAux p fuel (gobble p i rest).2.1).2)

/-- One full pass of the outer loop of reduceKmesh at a fixed `invert` value. -/
def passK (p : QN → QN → Bool) (l : List QN) : List QN × Bool :=
  passKAux p l.length l

/-- `Symmetries::reduceKmesh`: in no-symmetry mode the input is returned at once
(leaving the stored `kpointInvertList`, passed here as `prevInvert`, untouched);
otherwise one pass with `invert = +1` is followed by one pass with
`invert = -1` over the already reduced list, and `kpointInvertList` becomes
`[1, -1]` if the inversion pass merged anything (`usedInversion`), else `[1]`. -/
def reduceKmesh (mode : SymMode) (close : Vec3 ℚ → Vec3 ℚ → Bool)
    (sym : List (Mat3 ℤ)) (prevInvert : List ℤ) (qnums : List QN) :
    List QN × List ℤ :=
  if mode = SymMode.smNone then (qnums, prevInvert)
  else
    ((passK (matchK close sym (-1)) (passK (matchK close sym 1) qnums).1).1,
     if (passK (matchK close sym (-1)) (passK (matchK close sym 1) qnums).1).2
     then [1, -1] else [1])

/-- Total weight of a k-point list. -/
def sumW (l : List QN) : ℚ := l.foldr (fun q a => q.weight + a) 0

/-- No ordered pair of the list matches under `p` (first pass exhausted). -/
def noPairMatch (p : QN → QN → Bool) : List QN → Bool
  | [] => true
  | q :: tl => tl.all (fun j => !(p q j)) && noPairMatch p tl

/-- One species of the ionic structure: ordered fractional atom positions and
optional magnetic moments (an empty list means no moments were specified),
mirroring `SpeciesInfo::atpos` and `SpeciesInfo::initialMagneticMoments`. -/
structure Species where
  atpos : List (Vec3 ℚ)
  moments : List ℚ
deriving DecidableEq

/-- The spin-compatibility test of basisReduce: either no magnetic moments are
specified for the species, or atoms a1 and a2 carry equal moments. -/
def momentOK (sp : Species) (a1 a2 : ℕ) : Bool :=
  sp.moments.isEmpty || decide (sp.moments.getD a1 0 = sp.moments.getD a2 0)

/-- Inner search of basisReduce: some atom a2 of the species lies within
tolerance of the mapped position of atom a1 and has a compatible moment. -/
def hasImage (close : Vec3 ℚ → Vec3 ℚ → Bool) (sp : Species) (mapped : Vec3 ℚ)
    (a1 : ℕ) : Bool :=
  (List.range sp.atpos.length).any
    (fun a2 => close mapped (sp.atpos.getD a2 vzero) && momentOK sp a1 a2)

/-- Acceptance condition of `Symmetries::basisReduce` for one lattice symmetry m:
for every species and every atom a1, the point `offset + m*(pos[a1]-offset)`
coincides within tolerance with some atom a2 of the same species having a
compatible magnetic moment. -/
def basisAccept (close : Vec3 ℚ → Vec3 ℚ → Bool) (species : List Species)
    (offset : Vec3 ℚ) (m : Mat3 ℤ) : Bool :=
  species.all (fun sp =>
    (List.range sp.atpos.length).all (fun a1 =>
      hasImage close sp (offset + m.mulVecQ (sp.atpos.getD a1 vzero - offset)) a1))

/-- `Symmetries::basisReduce`: keep the lattice symmetries commensurate with the
atomic basis about the given offset. -/
def basisReduce (close : Vec3 ℚ → Vec3 ℚ → Bool) (species : List Species)
    (symLattice : List (Mat3 ℤ)) (offset : Vec3 ℚ) : List (Mat3 ℤ) :=
  symLattice.filter (basisAccept close species offset)

/-- `Symmetries::checkSymmetries`: every manually specified matrix must map every
atom of every species onto some atom of the same species within tolerance; true
means no `die` is triggered. The source consults positions only — it never
reads the magnetic moments. -/
def checkSymmetriesOK (close : Vec3 ℚ → Vec3 ℚ → Bool) (species : List Species)
    (sym : List (Mat3 ℤ)) : Bool :=
  sym.all (fun m => species.all (fun sp => sp.atpos.all (fun pos1 =>
    sp.atpos.any (fun pos2 => close (m.mulVecQ pos1) pos2))))

/-- Candidate symmetry centers of `Symmetries::calcSymmetries`: every atom
position, and the midpoint of every unordered pair of atoms of one species, in
source order. -/
def centerCandidates (species : List Species) : List (Vec3 ℚ) :=
  species.flatMap (fun sp =>
    (List.range sp.atpos.length).flatMap (fun n1 =>
      sp.atpos.getD n1 vzero ::
        (List.range n1).map (fun n2 =>
          qsmul (1/2) (sp.atpos.getD n1 vzero + sp.atpos.getD n2 vzero))))

/-- Body of the candidate-scanning loop: replace the running (rCenter, sym) pair
whenever a proposed center yields strictly more basis-compatible symmetries. -/
def centerStep (close : Vec3 ℚ → Vec3 ℚ → Bool) (species : List Species)
    (symLattice : List (Mat3 ℤ)) (acc : Vec3 ℚ × List (Mat3 ℤ)) (r : Vec3 ℚ) :
    Vec3 ℚ × List (Mat3 ℤ) :=
  if acc.2.length < (basisReduce close species symLattice r).length
  then (r, basisReduce close species symLattice r) else acc

/-- The candidate scan of calcSymmetries, starting from rCenter = 0 with the
group already reduced about the origin. -/
def pickCenter (close : Vec3 ℚ → Vec3 ℚ → Bool) (species : List Species)
    (symLattice : List (Mat3 ℤ)) : Vec3 ℚ × List (Mat3 ℤ) :=
  (centerCandidates species).foldl (centerStep close species symLattice)
    (vzero, basisReduce close species symLattice vzero)

/-- The shouldMoveAtoms block of `Symmetries::calcSymmetries`: if the best
candidate center strictly increases the symmetry count over the origin-reduced
group, every atom position of every species is shifted in place by -rCenter and
the process dies — the error value carries the relocated structure; otherwise
the structure is untouched. -/
def moveAtomsCheck (close : Vec3 ℚ → Vec3 ℚ → Bool) (species : List Species)
    (symLattice : List (Mat3 ℤ)) :
    Except (List Species) (List Species × List (Mat3 ℤ)) :=
  if (basisReduce close species symLattice vzero).length
      < (pickCenter close species symLattice).2.length
  then .error (species.map (fun sp =>
    ⟨sp.atpos.map (fun pos => pos - (pickCenter close species symLattice).1),
     sp.moments⟩))
  else .ok (species, (pickCenter close species symLattice).2)

/-- The row-scaled matrix `Diag(S) * m` of checkFFTbox: entry (i,j) is
`S[i] * m(i,j)`. -/
def scaleRows (S : Vec3 ℤ) (m : Mat3 ℤ) : Mat3 ℤ :=
  ⟨⟨S.x * m.r0.x, S.x * m.r0.y, S.x * m.r0.z⟩,
   ⟨S.y * m.r1.x, S.y * m.r1.y, S.y * m.r1.z⟩,
   ⟨S.z * m.r2.x, S.z * m.r2.y, S.z * m.r2.z⟩⟩

/-- The per-entry test of checkFFTbox: every entry of `Diag(S)*m` must satisfy
`entry % S[j] == 0` (exact divisibility by the column's grid dimension). -/
def commensurate (S : Vec3 ℤ) (m : Mat3 ℤ) : Bool :=
  (List.finRange 3).all (fun i => (List.finRange 3).all (fun j =>
    decide ((scaleRows S m).entry i j % S.get j = 0)))

/-- The mesh-coordinate matrix `Diag(S) * m * Diag(inv(S))` produced by the exact
divisions checkFFTbox performs on success: entry (i,j) is `S[i]*m(i,j) / S[j]`. -/
def meshMatrix (S : Vec3 ℤ) (m : Mat3 ℤ) : Mat3 ℤ :=
  ⟨⟨S.x * m.r0.x / S.x, S.x * m.r0.y / S.y, S.x * m.r0.z / S.z⟩,
   ⟨S.y * m.r1.x / S.x, S.y * m.r1.y / S.y, S.y * m.r1.z / S.z⟩,
   ⟨S.z * m.r2.x / S.x, S.z * m.r2.y / S.y, S.z * m.r2.z / S.z⟩⟩

/-- The commensuration loop of `Symmetries::checkFFTbox`: dies (none) exactly
when some symmetry matrix has an entry of `Diag(S)*m` not divisible by the
corresponding grid dimension; otherwise yields the mesh matrices `symMesh`. -/
def checkFFTboxSym (S : Vec3 ℤ) (sym : List (Mat3 ℤ)) : Option (List (Mat3 ℤ)) :=
  if sym.all (fun m => commensurate S m) then some (sym.map (meshMatrix S)) else none

/-- A 4-fold rotation about the third grid axis (mixes axes 0 and 1). -/
def rot4z : Mat3 ℤ := ⟨⟨0, -1, 0⟩, ⟨1, 0, 0⟩, ⟨0, 0, 1⟩⟩

/-- Species used in the counterexample to claim C3: two atoms that inversion
maps onto each other, but with opposite magnetic moments. -/
def spC3 : Species := ⟨[⟨1/4, 1/4, 1/4⟩, ⟨3/4, 3/4, 3/4⟩], [1, -1]⟩

/-- Species used in the witness of the amended claim C3 (no moments). -/
def spW3 : Species := ⟨[⟨0, 0, 0⟩, ⟨1/2, 0, 0⟩], []⟩

/-- Species used in the witness of claim C10: one off-center atom, so inversion
survives only about the atom itself. -/
def spW10 : Species := ⟨[⟨1/4, 1/4, 1/4⟩], []⟩

/-- Integer interval [lo, hi] as a list, in increasing order (a C-style
`for(v=lo; v<=hi; v++)` loop). -/
def intRange (lo hi : ℤ) : List ℤ :=
  (List.range (hi + 1 - lo).toNat).map (fun (n : ℕ) => lo + (n : ℤ))

/-- Values of the innermost loop of the shell search: dv2 runs from -d1 to d1 in
steps of 2*max(1,d1), i.e. just [0] when d1 = 0 and the two endpoints
[-d1, d1] otherwise. -/
def dv2List (d1 : ℕ) : List ℤ :=
  if d1 = 0 then [0] else [-(d1 : ℤ), (d1 : ℤ)]

/-- One Manhattan shell: all displacements dv with |dv0|+|dv1|+|dv2| = d,
enumerated exactly as the triple loop of checkFFTbox (dv0 outermost, then dv1,
then the dv2 endpoints). -/
def shellPoints (d : ℕ) : List (Vec3 ℤ) :=
  (intRange (-(d : ℤ)) (d : ℤ)).flatMap (fun a =>
    (intRange (-((d - a.natAbs : ℕ) : ℤ)) ((d - a.natAbs : ℕ) : ℤ)).flatMap (fun b =>
      (dv2List ((d - a.natAbs) - b.natAbs)).map (fun c => (⟨a, b, c⟩ : Vec3 ℤ))))

/-- Search bound of checkFFTbox: shells d = 0 .. (S0+S1+S2)/2 + 1 are scanned. -/
def searchRadius (S : Vec3 ℕ) : ℕ := (S.x + S.y + S.z) / 2 + 1

/-- Manhattan length of an integer displacement. -/
def manhattan (v : Vec3 ℤ) : ℕ := v.x.natAbs + v.y.natAbs + v.z.natAbs

/-- The outward shell search of checkFFTbox: the first point iv0 + dv — scanned
over shells of increasing Manhattan distance d = 0..D, within a shell in the
loop's order — that satisfies `valid`; none means the final die(...) fires. -/
def centerSearch (valid : Vec3 ℤ → Bool) (iv0 : Vec3 ℤ) (D : ℕ) : Option (Vec3 ℤ) :=
  (((List.range (D + 1)).flatMap shellPoints).find? (fun dv => valid (iv0 + dv))).map
    (fun dv => iv0 + dv)

/-- The fractional point x = inv(Diag(S)) * iv represented exactly on the grid. -/
def ivToX (S : Vec3 ℕ) (iv : Vec3 ℤ) : Vec3 ℚ :=
  ⟨(iv.x : ℚ) / (S.x : ℚ), (iv.y : ℚ) / (S.y : ℚ), (iv.z : ℚ) / (S.z : ℚ)⟩

/-- Validity of a candidate grid point as the relocated embedding center:
x = iv/S is fixed, within tolerance, by every symmetry operation. -/
def validCenter (close : Vec3 ℚ → Vec3 ℚ → Bool) (S : Vec3 ℕ) (sym : List (Mat3 ℤ))
    (iv : Vec3 ℤ) : Bool :=
  sym.all (fun m => close (ivToX S iv) (m.mulVecQ (ivToX S iv)))

/-- The nearest integer grid index round(c*S) to the embedding center (the
starting point iv0 of the shell search). -/
def roundVec (S : Vec3 ℕ) (c : Vec3 ℚ) : Vec3 ℤ :=
  ⟨round (c.x * (S.x : ℚ)), round (c.y * (S.y : ℚ)), round (c.z * (S.z : ℚ))⟩

/-- The embedding-center relocation search of `Symmetries::checkFFTbox`. -/
def embedCenterSearch (close : Vec3 ℚ → Vec3 ℚ → Bool) (S : Vec3 ℕ)
    (sym : List (Mat3 ℤ)) (c : Vec3 ℚ) : Option (Vec3 ℤ) :=
  centerSearch (validCenter close S sym) (roundVec S c) (searchRadius S)

/-- Modelled from the spec: `GridInfo::fullRindex` (not under src/) — the
row-major flat index of an in-range grid point. -/
def fullRindex (S : Vec3 ℕ) (r : Vec3 ℕ) : ℕ := (r.x * S.y + r.y) * S.z + r.z

/-- Periodic wraparound of one (possibly negative or out-of-range) grid
coordinate into [0, s). -/
def wrapCoord (s : ℕ) (a : ℤ) : ℕ := (a % (s : ℤ)).toNat

/-- Modelled from the spec: `GridInfo::fullGindex` (not under src/) — the
row-major flat index with periodic wraparound on each axis. The loop's per-axis
truncated `rNew[i] % S[i]` followed by fullGindex's wrapping of negatives
composes to this single mathematical modulus per axis. -/
def fullGindex (S : Vec3 ℕ) (v : Vec3 ℤ) : ℕ :=
  (wrapCoord S.x v.x * S.y + wrapCoord S.y v.y) * S.z + wrapCoord S.z v.z

/-- Index of the image of grid point r under a mesh matrix m, as computed by the
body of the initSymmIndex loop. -/
def imageIndex (S : Vec3 ℕ) (m : Mat3 ℤ) (r : Vec3 ℕ) : ℕ :=
  fullGindex S (m.mulVecZ ⟨(r.x : ℤ), (r.y : ℤ), (r.z : ℤ)⟩)

/-- All grid points in row-major order (r[0] outermost), as the triple loop of
initSymmIndex visits them. -/
def rowMajorPoints (S : Vec3 ℕ) : List (Vec3 ℕ) :=
  (List.range S.x).flatMap (fun a => (List.range S.y).flatMap (fun b =>
    (List.range S.z).map (fun c => (⟨a, b, c⟩ : Vec3 ℕ))))

/-- One orbit row: the destination entries contributed by one seed, one per mesh
matrix, in the group's fixed order. -/
def orbitRow (S : Vec3 ℕ) (symMesh : List (Mat3 ℤ)) (r : Vec3 ℕ) : List ℕ :=
  symMesh.map (fun m => imageIndex S m r)

/-- The loop of `Symmetries::initSymmIndex` over a list of grid points. In the
source, done[j] is set exactly when j is pushed into the table, so the test
`!done[index]` is equivalent to the index not being a table entry yet; a point
whose index is already in the table is skipped, any other point seeds a new
orbit and appends its row. Returns the final table and the seeds in order. -/
def symmRun (S : Vec3 ℕ) (symMesh : List (Mat3 ℤ)) :
    List (Vec3 ℕ) → List ℕ → List ℕ × List (Vec3 ℕ)
  | [], table => (table, [])
  | r :: ps, table =>
    if fullRindex S r ∈ table then symmRun S symMesh ps table
    else
      ((symmRun S symMesh ps (table ++ orbitRow S symMesh r)).1,
       r :: (symmRun S symMesh ps (table ++ orbitRow S symMesh r)).2)

/-- The orbit table symmIndexVec built by initSymmIndex. -/
def symmIndexTable (S : Vec3 ℕ) (symMesh : List (Mat3 ℤ)) : List ℕ :=
  (symmRun S symMesh (rowMajorPoints S) []).1

/-- The orbit seeds of initSymmIndex, in visiting order. -/
def symmIndexSeeds (S : Vec3 ℕ) (symMesh : List (Mat3 ℤ)) : List (Vec3 ℕ) :=
  (symmRun S symMesh (rowMajorPoints S) []).2

/-- A mesh matrix swapping the first two grid axes (used in the C7 witness). -/
def swapXY : Mat3 ℤ := ⟨⟨0, 1, 0⟩, ⟨1, 0, 0⟩, ⟨0, 0, 1⟩⟩

section KmeshLemmas

@[simp] theorem sumW_nil : sumW [] = 0 := rfl

@[simp] theorem sumW_cons (q : QN) (l : List QN) : sumW (q :: l) = q.weight + sumW l := rfl

theorem gobble_weight (p : QN → QN → Bool) (q : QN) (l : List QN) :
    (gobble p q l).1.weight + sumW (gobble p q l).2.1 = q.weight + sumW l := by
  induction l generalizing q with
  | nil => simp [gobble]
  | cons j tl ih =>
    cases hp : p q j with
    | true =>
      simp only [gobble, hp, if_true, sumW_cons]
      have h := ih ⟨q.k, q.weight + j.weight⟩
      simp only [QN.mk.injEq] at h
      rw [h]
      ring
    | false =>
      simp only [gobble, hp, Bool.false_eq_true, if_false, sumW_cons]
      have h := ih q
      linarith

theorem gobble_len (p : QN → QN → Bool) (q : QN) (l : List QN) :
    (gobble p q l).2.1.length ≤ l.length := by
  induction l generalizing q with
  | nil => simp [gobble]
  | cons j tl ih =>
    cases hp : p q j with
    | true =>
      simp only [gobble, hp, if_true, List.length_cons]
      exact Nat.le_succ_of_le (ih _)
    | false =>
      simp only [gobble, hp, Bool.false_eq_true, if_false, List.length_cons]
      exact Nat.succ_le_succ (ih q)

theorem gobble_keep (p : QN → QN → Bool) (q : QN) (l : List QN)
    (h : (gobble p q l).2.2 = false) :
    (gobble p q l).1 = q ∧ (gobble p q l).2.1 = l := by
  induction l generalizing q with
  | nil => simp [gobble]
  | cons j tl ih =>
    cases hp : p q j with
    | true => simp [gobble, hp] at h
    | false =>
      simp only [gobble, hp, Bool.false_eq_true, if_false] at h ⊢
      obtain ⟨h1, h2⟩ := ih q h
      exact ⟨h1, by rw [h2]⟩

theorem gobble_shrink (p : QN → QN → Bool) (q : QN) (l : List QN)
    (h : (gobble p q l).2.2 = true) :
    (gobble p q l).2.1.length < l.length := by
  induction l generalizing q with
  | nil => simp [gobble] at h
  | cons j tl ih =>
    cases hp : p q j with
    | true =>
      simp only [gobble, hp, if_true, List.length_cons]
      exact Nat.lt_succ_of_le (gobble_len p _ tl)
    | false =>
      simp only [gobble, hp, Bool.false_eq_true, if_false, List.length_cons] at h ⊢
      exact Nat.succ_lt_succ (ih q h)

theorem gobble_nomatch (p : QN → QN → Bool) (q : QN) (l : List QN)
    (h : l.all (fun j => !(p q j)) = true) :
    gobble p q l = (q, l, false) := by
  induction l with
  | nil => simp [gobble]
  | cons j tl ih =>
    simp only [List.all_cons, Bool.and_eq_true, Bool.not_eq_true'] at h
    simp [gobble, h.1, ih h.2]

theorem passKAux_len (p : QN → QN → Bool) :
    ∀ (fuel : ℕ) (l : List QN), (passKAux p fuel l).1.length ≤ l.length := by
  intro fuel
  induction fuel with
  | zero => intro l; cases l <;> simp [passKAux]
  | succ n ih =>
    intro l
    cases l with
    | nil => simp [passKAux]
    | cons i rest =>
      simp only [passKAux, List.length_cons]
      exact Nat.succ_le_succ (le_trans (ih _) (gobble_len p i rest))

theorem passKAux_weight (p : QN → QN → Bool) :
    ∀ (fuel : ℕ) (l : List QN), sumW (passKAux p fuel l).1 = sumW l := by
  intro fuel
  induction fuel with
  | zero => intro l; cases l <;> rfl
  | succ n ih =>
    intro l
    cases l with
    | nil => rfl
    | cons i rest =>
      simp only [passKAux, sumW_cons]
      rw [ih]
      have h := gobble_weight p i rest
      linarith

theorem passKAux_nomatch (p : QN → QN → Bool) :
    ∀ (fuel : ℕ) (l : List QN), noPairMatch p l = true → passKAux p fuel l = (l, false) := by
  intro fuel
  induction fuel with
  | zero => intro l _; cases l <;> rfl
  | succ n ih =>
    intro l h
    cases l with
    | nil => rfl
    | cons i rest =>
      simp only [noPairMatch, Bool.and_eq_true] at h
      have hg := gobble_nomatch p i rest h.1
      simp only [passKAux, hg, ih rest h.2]
      simp

theorem passKAux_false (p : QN → QN → Bool) :
    ∀ (fuel : ℕ) (l : List QN), (passKAux p fuel l).2 = false → (passKAux p fuel l).1 = l := by
  intro fuel
  induction fuel with
  | zero => intro l _; cases l <;> rfl
  | succ n ih =>
    intro l h
    cases l with
    | nil => rfl
    | cons i rest =>
      simp only [passKAux, Bool.or_eq_false_iff] at h
      obtain ⟨hg, hr⟩ := h
      obtain ⟨h1, h2⟩ := gobble_keep p i rest hg
      simp only [passKAux, h1, h2] at hr ⊢
      rw [ih rest hr]

theorem passKAux_true (p : QN → QN → Bool) :
    ∀ (fuel : ℕ) (l : List QN), l.length ≤ fuel → (passKAux p fuel l).2 = true →
      (passKAux p fuel l).1.length < l.length := by
  intro fuel
  induction fuel with
  | zero =>
    intro l hf h
    cases l with
    | nil => simp [passKAux] at h
    | cons i rest => simp at hf
  | succ n ih =>
    intro l hf h
    cases l with
    | nil => simp [passKAux] at h
    | cons i rest =>
      simp only [passKAux, Bool.or_eq_true] at h
      simp only [passKAux, List.length_cons]
      rcases h with hg | hr
      · have h1 := gobble_shrink p i rest hg
        have h2 := passKAux_len p n (gobble p i rest).2.1
        omega
      · have hgl := gobble_len p i rest
        have hfl : (gobble p i rest).2.1.length ≤ n := by
          simp only [List.length_cons] at hf; omega
        have h3 := ih _ hfl hr
        omega

end KmeshLemmas

section BasisLemmas

theorem vzero_add (v : Vec3 ℚ) : vzero + v = v := by
  show Vec3.mk (0 + v.x) (0 + v.y) (0 + v.z) = v
  simp

theorem sub_vzero (v : Vec3 ℚ) : v - vzero = v := by
  show Vec3.mk (v.x - 0) (v.y - 0) (v.z - 0) = v
  simp

theorem all_ext {α : Type} (p q : α → Bool) (l : List α)
    (h : ∀ x ∈ l, p x = q x) : l.all p = l.all q := by
  cases hq : l.all q with
  | false =>
    rw [List.all_eq_false] at hq ⊢
    obtain ⟨x, hx, hpx⟩ := hq
    refine ⟨x, hx, ?_⟩
    rw [h x hx]
    exact hpx
  | true =>
    rw [List.all_eq_true] at hq ⊢
    intro x hx
    rw [h x hx]
    exact hq x hx

theorem any_ext {α : Type} (p q : α → Bool) (l : List α)
    (h : ∀ x ∈ l, p x = q x) : l.any p = l.any q := by
  cases hq : l.any q with
  | false =>
    rw [List.any_eq_false] at hq ⊢
    intro x hx
    rw [h x hx]
    exact hq x hx
  | true =>
    rw [List.any_eq_true] at hq ⊢
    obtain ⟨x, hx, hpx⟩ := hq
    refine ⟨x, hx, ?_⟩
    rw [h x hx]
    exact hpx

theorem range_any_getD {α : Type} (l : List α) (d : α) (f : α → Bool) :
    (List.range l.length).any (fun i => f (l.getD i d)) = l.any f := by
  induction l with
  | nil => rfl
  | cons a tl ih =>
    rw [List.length_cons, List.range_succ_eq_map]
    simp only [List.any_cons, List.any_map, Function.comp_def, List.getD_cons_zero,
      List.getD_cons_succ]
    rw [ih]

theorem range_all_getD {α : Type} (l : List α) (d : α) (f : α → Bool) :
    (List.range l.length).all (fun i => f (l.getD i d)) = l.all f := by
  induction l with
  | nil => rfl
  | cons a tl ih =>
    rw [List.length_cons, List.range_succ_eq_map]
    simp only [List.all_cons, List.all_map, Function.comp_def, List.getD_cons_zero,
      List.getD_cons_succ]
    rw [ih]

theorem momentOK_empty (sp : Species) (a1 a2 : ℕ) (h : sp.moments = []) :
    momentOK sp a1 a2 = true := by
  simp [momentOK, h]

theorem basisAccept_no_moments (close : Vec3 ℚ → Vec3 ℚ → Bool) (m : Mat3 ℤ)
    (species : List Species) (hm : ∀ sp ∈ species, sp.moments = []) :
    basisAccept close species vzero m
      = species.all (fun sp => sp.atpos.all (fun pos1 =>
          sp.atpos.any (fun pos2 => close (m.mulVecQ pos1) pos2))) := by
  unfold basisAccept
  apply all_ext
  intro sp hsp
  rw [← range_all_getD sp.atpos vzero
    (fun pos1 => sp.atpos.any (fun pos2 => close (m.mulVecQ pos1) pos2))]
  apply all_ext
  intro a1 _
  unfold hasImage
  rw [← range_any_getD sp.atpos vzero
    (fun pos2 => close (m.mulVecQ (sp.atpos.getD a1 vzero)) pos2)]
  apply any_ext
  intro a2 _
  rw [momentOK_empty sp a1 a2 (hm sp hsp), Bool.and_true, sub_vzero, vzero_add]

theorem centerFold_basis (close : Vec3 ℚ → Vec3 ℚ → Bool) (species : List Species)
    (symLattice : List (Mat3 ℤ)) :
    ∀ (cands : List (Vec3 ℚ)) (acc : Vec3 ℚ × List (Mat3 ℤ)),
      acc.2 = basisReduce close species symLattice acc.1 →
      (cands.foldl (centerStep close species symLattice) acc).2
        = basisReduce close species symLattice
            ((cands.foldl (centerStep close species symLattice) acc).1) := by
  intro cands
  induction cands with
  | nil => intro acc h; exact h
  | cons c cs ih =>
    intro acc h
    rw [List.foldl_cons]
    apply ih
    unfold centerStep
    by_cases hlt : acc.2.length < (basisReduce close species symLattice c).length
    · rw [if_pos hlt]
    · rw [if_neg hlt]; exact h

theorem centerFold_mem (close : Vec3 ℚ → Vec3 ℚ → Bool) (species : List Species)
    (symLattice : List (Mat3 ℤ)) :
    ∀ (cands : List (Vec3 ℚ)) (acc : Vec3 ℚ × List (Mat3 ℤ)),
      cands.foldl (centerStep close species symLattice) acc = acc
      ∨ (cands.foldl (centerStep close species symLattice) acc).1 ∈ cands := by
  intro cands
  induction cands with
  | nil => intro _; exact Or.inl rfl
  | cons c cs ih =>
    intro acc
    rw [List.foldl_cons]
    rcases ih (centerStep close species symLattice acc c) with h | h
    · rw [h]
      unfold centerStep
      by_cases hlt : acc.2.length < (basisReduce close species symLattice c).length
      · rw [if_pos hlt]
        exact Or.inr (List.mem_cons_self c cs)
      · rw [if_neg hlt]
        exact Or.inl rfl
    · exact Or.inr (List.mem_cons_of_mem c h)

end BasisLemmas

section FFTboxLemmas

theorem scaleRows_entry (S : Vec3 ℤ) (m : Mat3 ℤ) (i j : Fin 3) :
    (scaleRows S m).entry i j = S.get i * m.entry i j := by
  fin_cases i <;> fin_cases j <;> rfl

theorem commensurate_iff (S : Vec3 ℤ) (m : Mat3 ℤ) :
    commensurate S m = true ↔ ∀ i j : Fin 3, S.get j ∣ S.get i * m.entry i j := by
  unfold commensurate
  simp only [List.all_eq_true, List.mem_finRange, forall_const, decide_eq_true_eq,
    scaleRows_entry]
  constructor
  · intro h i j
    exact Int.dvd_of_emod_eq_zero (h i j)
  · intro h i j
    exact Int.emod_eq_zero_of_dvd (h i j)

end FFTboxLemmas

section CenterSearchLemmas

theorem mem_intRange (lo hi a : ℤ) : a ∈ intRange lo hi ↔ lo ≤ a ∧ a ≤ hi := by
  unfold intRange
  simp only [List.mem_map, List.mem_range]
  constructor
  · rintro ⟨n, hn, rfl⟩
    omega
  · intro h
    exact ⟨(a - lo).toNat, by omega, by omega⟩

theorem mem_shellPoints (dv : Vec3 ℤ) (d : ℕ) :
    dv ∈ shellPoints d ↔ manhattan dv = d := by
  unfold shellPoints manhattan
  simp only [List.mem_flatMap, List.mem_map, mem_intRange]
  constructor
  · rintro ⟨a, ⟨ha1, ha2⟩, b, ⟨hb1, hb2⟩, c, hc, rfl⟩
    by_cases h1 : (d - a.natAbs) - b.natAbs = 0
    · rw [dv2List, if_pos h1] at hc
      simp only [List.mem_singleton] at hc
      subst hc
      simp only
      omega
    · rw [dv2List, if_neg h1] at hc
      simp only [List.mem_cons, List.mem_singleton, List.not_mem_nil, or_false] at hc
      simp only
      omega
  · intro h
    refine ⟨dv.x, ⟨by omega, by omega⟩, dv.y, ⟨by omega, by omega⟩, dv.z, ?_, rfl⟩
    by_cases h1 : (d - dv.x.natAbs) - dv.y.natAbs = 0
    · rw [dv2List, if_pos h1]
      simp only [List.mem_singleton]
      omega
    · rw [dv2List, if_neg h1]
      simp only [List.mem_cons, List.mem_singleton, List.not_mem_nil, or_false]
      omega

theorem find_append {α : Type} (p : α → Bool) (l1 l2 : List α) :
    (l1 ++ l2).find? p = ((l1.find? p).elim (l2.find? p) some) := by
  induction l1 with
  | nil => simp
  | cons a tl ih =>
    cases h : p a with
    | true =>
      rw [List.cons_append, List.find?_cons_of_pos _ h, List.find?_cons_of_pos _ h]
      rfl
    | false =>
      rw [List.cons_append, List.find?_cons_of_neg _ (by simp [h]),
        List.find?_cons_of_neg _ (by simp [h]), ih]

theorem find?_shells {α : Type} (shells : ℕ → List α) (p : α → Bool) :
    ∀ (D : ℕ),
      (∀ a, ((List.range (D + 1)).flatMap shells).find? p = some a →
        p a = true ∧ ∃ d, d ≤ D ∧ a ∈ shells d ∧
          ∀ e, e < d → ∀ b ∈ shells e, p b = false)
      ∧ (((List.range (D + 1)).flatMap shells).find? p = none →
        ∀ d, d ≤ D → ∀ b ∈ shells d, p b = false) := by
  intro D
  induction D with
  | zero =>
    have h0 : (List.range 1).flatMap shells = shells 0 := by
      rw [show List.range 1 = [0] from rfl]
      simp
    constructor
    · intro a ha
      rw [h0] at ha
      refine ⟨List.find?_some ha, 0, le_refl 0, List.mem_of_find?_eq_some ha, ?_⟩
      intro e he
      omega
    · intro hnone d hd b hb
      rw [h0] at hnone
      have hd0 : d = 0 := Nat.le_zero.mp hd
      subst hd0
      simpa using List.find?_eq_none.mp hnone b hb
  | succ n ih =>
    have hsplit : (List.range (n + 1 + 1)).flatMap shells
        = (List.range (n + 1)).flatMap shells ++ shells (n + 1) := by
      rw [List.range_succ, List.flatMap_append]
      simp
    constructor
    · intro a ha
      rw [hsplit, find_append] at ha
      cases hfa : ((List.range (n + 1)).flatMap shells).find? p with
      | some b =>
        rw [hfa] at ha
        simp only [Option.elim, Option.some.injEq] at ha
        subst ha
        obtain ⟨hp, d, hd, hmem, hbefore⟩ := ih.1 b hfa
        exact ⟨hp, d, Nat.le_succ_of_le hd, hmem, hbefore⟩
      | none =>
        rw [hfa] at ha
        simp only [Option.elim] at ha
        refine ⟨List.find?_some ha, n + 1, le_refl _, List.mem_of_find?_eq_some ha, ?_⟩
        intro e he b hb
        exact ih.2 hfa e (by omega) b hb
    · intro hnone d hd b hb
      rw [hsplit, find_append] at hnone
      cases hfa : ((List.range (n + 1)).flatMap shells).find? p with
      | some c =>
        rw [hfa] at hnone
        simp only [Option.elim] at hnone
        cases hnone
      | none =>
        rw [hfa] at hnone
        simp only [Option.elim] at hnone
        by_cases hdn : d ≤ n
        · exact ih.2 hfa d hdn b hb
        · have hdeq : d = n + 1 := by omega
          subst hdeq
          simpa using List.find?_eq_none.mp hnone b hb

theorem vadd_def (a b : Vec3 ℤ) : a + b = ⟨a.x + b.x, a.y + b.y, a.z + b.z⟩ := rfl

theorem vsub_def (a b : Vec3 ℤ) : a - b = ⟨a.x - b.x, a.y - b.y, a.z - b.z⟩ := rfl

theorem vec_add_sub_cancel (a b : Vec3 ℤ) : a + b - a = b := by
  cases b with
  | mk b1 b2 b3 =>
    rw [vadd_def, vsub_def]
    simp

theorem vec_add_sub_self (a q : Vec3 ℤ) : a + (q - a) = q := by
  cases q with
  | mk q1 q2 q3 =>
    rw [vsub_def, vadd_def]
    simp

end CenterSearchLemmas

section SymmIndexLemmas

theorem mulVecZ_id (v : Vec3 ℤ) : idMat.mulVecZ v = v := by
  cases v with
  | mk a b c => simp [Mat3.mulVecZ, dotZ, idMat]

theorem imageIndex_id (S : Vec3 ℕ) (r : Vec3 ℕ)
    (hx : r.x < S.x) (hy : r.y < S.y) (hz : r.z < S.z) :
    imageIndex S idMat r = fullRindex S r := by
  unfold imageIndex
  rw [mulVecZ_id]
  simp only [fullGindex, wrapCoord, fullRindex]
  have wx : (((r.x : ℕ) : ℤ) % ((S.x : ℕ) : ℤ)).toNat = r.x := by
    rw [Int.emod_eq_of_lt (by omega) (by omega)]
    omega
  have wy : (((r.y : ℕ) : ℤ) % ((S.y : ℕ) : ℤ)).toNat = r.y := by
    rw [Int.emod_eq_of_lt (by omega) (by omega)]
    omega
  have wz : (((r.z : ℕ) : ℤ) % ((S.z : ℕ) : ℤ)).toNat = r.z := by
    rw [Int.emod_eq_of_lt (by omega) (by omega)]
    omega
  rw [wx, wy, wz]

theorem mem_rowMajorPoints (S : Vec3 ℕ) (r : Vec3 ℕ) :
    r ∈ rowMajorPoints S ↔ r.x < S.x ∧ r.y < S.y ∧ r.z < S.z := by
  unfold rowMajorPoints
  simp only [List.mem_flatMap, List.mem_map, List.mem_range]
  constructor
  · rintro ⟨a, ha, b, hb, c, hc, rfl⟩
    exact ⟨ha, hb, hc⟩
  · intro h
    exact ⟨r.x, h.1, r.y, h.2.1, r.z, h.2.2, rfl⟩

theorem flatMap_orbitRow_length (S : Vec3 ℕ) (symMesh : List (Mat3 ℤ)) :
    ∀ (ss : List (Vec3 ℕ)),
      (ss.flatMap (orbitRow S symMesh)).length = ss.length * symMesh.length := by
  intro ss
  induction ss with
  | nil => simp
  | cons r ss ih =>
    rw [List.flatMap_cons, List.length_append, ih]
    unfold orbitRow
    rw [List.length_map, List.length_cons]
    ring

theorem symmRun_table_eq (S : Vec3 ℕ) (symMesh : List (Mat3 ℤ)) :
    ∀ (ps : List (Vec3 ℕ)) (t : List ℕ),
      (symmRun S symMesh ps t).1
        = t ++ ((symmRun S symMesh ps t).2).flatMap (orbitRow S symMesh) := by
  intro ps
  induction ps with
  | nil => intro t; simp [symmRun]
  | cons r ps ih =>
    intro t
    by_cases h : fullRindex S r ∈ t
    · simp only [symmRun, if_pos h]
      exact ih t
    · simp only [symmRun, if_neg h, List.flatMap_cons]
      rw [← List.append_assoc]
      exact ih (t ++ orbitRow S symMesh r)

theorem symmRun_mem (S : Vec3 ℕ) (symMesh : List (Mat3 ℤ))
    (ps : List (Vec3 ℕ)) (t : List ℕ) (i : ℕ) (h : i ∈ t) :
    i ∈ (symmRun S symMesh ps t).1 := by
  rw [symmRun_table_eq]
  exact List.mem_append_left _ h

theorem symmRun_covers (S : Vec3 ℕ) (symMesh : List (Mat3 ℤ)) (hid : idMat ∈ symMesh) :
    ∀ (ps : List (Vec3 ℕ)) (t : List ℕ) (r : Vec3 ℕ), r ∈ ps →
      r.x < S.x → r.y < S.y → r.z < S.z →
      fullRindex S r ∈ (symmRun S symMesh ps t).1 := by
  intro ps
  induction ps with
  | nil =>
    intro t r hr
    simp at hr
  | cons q ps ih =>
    intro t r hr hx hy hz
    rcases List.mem_cons.mp hr with rfl | hr2
    · by_cases h : fullRindex S r ∈ t
      · simp only [symmRun, if_pos h]
        exact symmRun_mem S symMesh ps t _ h
      · simp only [symmRun, if_neg h]
        apply symmRun_mem
        apply List.mem_append_right
        unfold orbitRow
        rw [List.mem_map]
        exact ⟨idMat, hid, imageIndex_id S r hx hy hz⟩
    · by_cases h : fullRindex S q ∈ t
      · simp only [symmRun, if_pos h]
        exact ih t r hr2 hx hy hz
      · simp only [symmRun, if_neg h]
        exact ih (t ++ orbitRow S symMesh q) r hr2 hx hy hz

theorem symmRun_fresh (S : Vec3 ℕ) (symMesh : List (Mat3 ℤ)) :
    ∀ (ps : List (Vec3 ℕ)) (t : List ℕ) (n : ℕ),
      n < (symmRun S symMesh ps t).2.length →
      fullRindex S ((symmRun S symMesh ps t).2.getD n ⟨0, 0, 0⟩)
        ∉ t ++ ((symmRun S symMesh ps t).2.take n).flatMap (orbitRow S symMesh) := by
  intro ps
  induction ps with
  | nil =>
    intro t n hn
    simp [symmRun] at hn
  | cons r ps ih =>
    intro t n hn
    by_cases h : fullRindex S r ∈ t
    · simp only [symmRun, if_pos h] at hn ⊢
      exact ih t n hn
    · simp only [symmRun, if_neg h] at hn ⊢
      cases n with
      | zero =>
        simp only [List.getD_cons_zero, List.take_zero, List.flatMap_nil, List.append_nil]
        exact h
      | succ n2 =>
        simp only [List.length_cons, Nat.succ_lt_succ_iff] at hn
        have h2 := ih (t ++ orbitRow S symMesh r) n2 hn
        simp only [List.getD_cons_succ, List.take_succ_cons, List.flatMap_cons]
        rw [← List.append_assoc]
        exact h2

theorem index_decompose (S : Vec3 ℕ) (i : ℕ) (hy : 0 < S.y) (hz : 0 < S.z)
    (hi : i < S.x * S.y * S.z) :
    ∃ r : Vec3 ℕ, r.x < S.x ∧ r.y < S.y ∧ r.z < S.z ∧ fullRindex S r = i := by
  refine ⟨⟨i / (S.y * S.z), (i / S.z) % S.y, i % S.z⟩, ?_, ?_, ?_, ?_⟩
  · rw [Nat.div_lt_iff_lt_mul (Nat.mul_pos hy hz)]
    calc i < S.x * S.y * S.z := hi
    _ = S.x * (S.y * S.z) := by ring
  · exact Nat.mod_lt _ hy
  · exact Nat.mod_lt _ hz
  · have h1 : S.z * (i / S.z) + i % S.z = i := Nat.div_add_mod i S.z
    have h2 : S.y * (i / S.z / S.y) + (i / S.z) % S.y = i / S.z := Nat.div_add_mod _ S.y
    have h3 : i / S.z / S.y = i / (S.y * S.z) := by
      rw [Nat.div_div_eq_div_mul, Nat.mul_comm]
    unfold fullRindex
    simp only
    rw [← h3]
    have h4 : (i / S.z / S.y * S.y + i / S.z % S.y) * S.z + i % S.z
        = (S.y * (i / S.z / S.y) + i / S.z % S.y) * S.z + i % S.z := by ring
    rw [h4, h2, Nat.mul_comm (i / S.z) S.z]
    exact h1

end SymmIndexLemmas

section ClaimTheorems

attribute [local semireducible] Rat.add Rat.mul Rat.inv Rat.sub

/-- Claim C9: for every mode, closeness test (hence tolerance), symmetry group and
input k-point list, the total weight of the list returned by reduceKmesh equals
the total weight of the input list. -/
theorem c9_reduceKmesh_total_weight (mode : SymMode) (close : Vec3 ℚ → Vec3 ℚ → Bool)
    (sym : List (Mat3 ℤ)) (prev : List ℤ) (qnums : List QN) :
    sumW (reduceKmesh mode close sym prev qnums).1 = sumW qnums := by
  unfold reduceKmesh
  by_cases hm : mode = SymMode.smNone
  · simp [hm]
  · simp only [hm, if_false]
    unfold passK
    rw [passKAux_weight, passKAux_weight]

/-- Claim C1: reduceKmesh performs a spatial pass (matching `(~m)k_i` against
`k_j`) followed by an inversion pass (matching against `-k_j`) over the already
reduced list; when the spatial pass exhausts all equivalences (no remaining
ordered pair matches even allowing inversion), the inversion pass changes
nothing: the output is exactly the spatial-pass result and the invert list is
[+1], i.e. no inversion-based matching is reflected in the result. -/
theorem c1_reduceKmesh_two_pass (mode : SymMode) (close : Vec3 ℚ → Vec3 ℚ → Bool)
    (sym : List (Mat3 ℤ)) (prev : List ℤ) (qnums : List QN)
    (hm : mode ≠ SymMode.smNone)
    (hno : noPairMatch (matchK close sym (-1)) (passK (matchK close sym 1) qnums).1 = true) :
    reduceKmesh mode close sym prev qnums = ((passK (matchK close sym 1) qnums).1, [1]) := by
  unfold reduceKmesh
  rw [if_neg hm]
  have h2 : passK (matchK close sym (-1)) (passK (matchK close sym 1) qnums).1
      = ((passK (matchK close sym 1) qnums).1, false) := passKAux_nomatch _ _ _ hno
  rw [h2]
  simp

/-- Witness for C1: a concrete two-point mesh (identity group) where the spatial
pass exhausts all equivalences; the result is the unchanged list with invert
list [+1]. -/
theorem c1_witness :
    (SymMode.smManual ≠ SymMode.smNone)
    ∧ noPairMatch (matchK circClose [idMat] (-1))
        (passK (matchK circClose [idMat] 1) [⟨⟨0,0,0⟩,1⟩, ⟨⟨1/4,0,0⟩,1⟩]).1 = true
    ∧ reduceKmesh SymMode.smManual circClose [idMat] [] [⟨⟨0,0,0⟩,1⟩, ⟨⟨1/4,0,0⟩,1⟩]
        = ([⟨⟨0,0,0⟩,1⟩, ⟨⟨1/4,0,0⟩,1⟩], [1]) :=
  ⟨by decide, by decide,
    c1_reduceKmesh_two_pass SymMode.smManual circClose [idMat] []
      [⟨⟨0,0,0⟩,1⟩, ⟨⟨1/4,0,0⟩,1⟩] (by decide) (by decide)⟩

/-- Counterexample to claim C2 as stated: with a symmetry group containing only
the identity (but a mode other than no-symmetry, which is what actually guards
the pass-through), the inversion pass still merges the distinct pair k and -k,
so the input is not returned unchanged. -/
theorem c2_counterexample :
    (reduceKmesh SymMode.smManual circClose [idMat] []
        [⟨⟨1/4, 0, 0⟩, 1/2⟩, ⟨⟨-1/4, 0, 0⟩, 1/2⟩]).1
      ≠ [⟨⟨1/4, 0, 0⟩, 1/2⟩, ⟨⟨-1/4, 0, 0⟩, 1/2⟩] := by decide

/-- Claim C2 (amended): reduceKmesh returns the input list unchanged (same
elements, same order) if the mode is the no-symmetry mode — the mode in which
the group is set to just the identity — or if the group is only the identity
and no two input k-points coincide within tolerance, directly or under
inversion. -/
theorem c2_identity_passthrough (mode : SymMode) (close : Vec3 ℚ → Vec3 ℚ → Bool)
    (prev : List ℤ) (qnums : List QN)
    (h : mode = SymMode.smNone ∨
      (noPairMatch (matchK close [idMat] 1) qnums = true ∧
       noPairMatch (matchK close [idMat] (-1)) qnums = true)) :
    (reduceKmesh mode close [idMat] prev qnums).1 = qnums := by
  unfold reduceKmesh
  by_cases hm : mode = SymMode.smNone
  · simp [hm]
  · rcases h with h | ⟨h1, h2⟩
    · exact absurd h hm
    · rw [if_neg hm]
      have e1 : passK (matchK close [idMat] 1) qnums = (qnums, false) :=
        passKAux_nomatch _ _ _ h1
      have e2 : passK (matchK close [idMat] (-1)) qnums = (qnums, false) :=
        passKAux_nomatch _ _ _ h2
      rw [e1]
      rw [e2]

/-- Witness for C2 (amended) at a concrete two-point mesh with distinct,
non-inversion-related k-points and the identity-only group. -/
theorem c2_witness :
    (SymMode.smManual = SymMode.smNone ∨
      (noPairMatch (matchK circClose [idMat] 1) [⟨⟨0,0,0⟩,1⟩, ⟨⟨1/4,1/4,0⟩,1⟩] = true ∧
       noPairMatch (matchK circClose [idMat] (-1)) [⟨⟨0,0,0⟩,1⟩, ⟨⟨1/4,1/4,0⟩,1⟩] = true))
    ∧ (reduceKmesh SymMode.smManual circClose [idMat] []
        [⟨⟨0,0,0⟩,1⟩, ⟨⟨1/4,1/4,0⟩,1⟩]).1 = [⟨⟨0,0,0⟩,1⟩, ⟨⟨1/4,1/4,0⟩,1⟩] :=
  ⟨Or.inr ⟨by decide, by decide⟩,
    c2_identity_passthrough SymMode.smManual circClose [] [⟨⟨0,0,0⟩,1⟩, ⟨⟨1/4,1/4,0⟩,1⟩]
      (Or.inr ⟨by decide, by decide⟩)⟩

/-- Claim C4 exposes a code bug: in the no-symmetry mode reduceKmesh returns
before the line that assigns kpointInvertList, so the stored list (default
initialized empty, passed here as the previous value) remains empty — it is
neither [+1] nor [+1,-1], contradicting the documented invariant that it always
is one of the two and is propagated to downstream consumers. -/
theorem c4_none_mode_invert_list_empty :
    (reduceKmesh SymMode.smNone circClose [idMat] [] [⟨⟨0,0,0⟩,1⟩]).2 = []
    ∧ ¬((reduceKmesh SymMode.smNone circClose [idMat] [] [⟨⟨0,0,0⟩,1⟩]).2 = [1]
        ∨ (reduceKmesh SymMode.smNone circClose [idMat] [] [⟨⟨0,0,0⟩,1⟩]).2 = [1, -1]) :=
  ⟨rfl, by decide⟩

/-- Claim C5: checkFFTbox computes, per symmetry matrix, the grid-space matrix
with entry (i,j) equal to S[i]*m(i,j)/S[j], and terminates fatally exactly when
some entry S[i]*m(i,j) fails to be divisible by S[j]; with S = (4,4,4) a 4-fold
rotation aligned to the third grid axis passes (the mesh matrix is the rotation
itself, all entries integral), while S = (3,4,4) with the same rotation mixing
axes 0 and 1 fails the check. -/
theorem c5_checkFFTbox_commensuration :
    (∀ (S : Vec3 ℤ) (sym : List (Mat3 ℤ)),
      checkFFTboxSym S sym = none
        ↔ ∃ m, m ∈ sym ∧ ∃ i j : Fin 3, ¬ (S.get j ∣ S.get i * m.entry i j))
    ∧ (∀ (S : Vec3 ℤ) (m : Mat3 ℤ) (i j : Fin 3),
        (meshMatrix S m).entry i j = S.get i * m.entry i j / S.get j)
    ∧ checkFFTboxSym ⟨4, 4, 4⟩ [rot4z] = some [rot4z]
    ∧ checkFFTboxSym ⟨3, 4, 4⟩ [rot4z] = none := by
  refine ⟨?_, ?_, by decide, by decide⟩
  · intro S sym
    unfold checkFFTboxSym
    by_cases h : sym.all (fun m => commensurate S m) = true
    · rw [if_pos h]
      constructor
      · intro hc
        cases hc
      · rintro ⟨m, hm, i, j, hnd⟩
        rw [List.all_eq_true] at h
        exact absurd ((commensurate_iff S m).mp (h m hm) i j) hnd
    · rw [if_neg h]
      constructor
      · intro _
        rw [List.all_eq_true] at h
        push_neg at h
        obtain ⟨m, hm, hc⟩ := h
        refine ⟨m, hm, ?_⟩
        by_contra hall
        push_neg at hall
        exact hc ((commensurate_iff S m).mpr hall)
      · intro _
        rfl
  · intro S m i j
    fin_cases i <;> fin_cases j <;> rfl

/-- Claim C7: after initSymmIndex runs with a group containing the identity, the
orbit table is exactly the concatenation of one row per orbit seed, each row
holding one destination entry per operation in the group's fixed order (so the
table length is seed count times group order); every grid point index in
[0, nr) appears in the table (is marked done); and no orbit seed is a member of
any earlier seed's orbit entries — every grid point belongs to exactly one
orbit in that sense. -/
theorem c7_initSymmIndex_invariants (S : Vec3 ℕ) (symMesh : List (Mat3 ℤ))
    (hid : idMat ∈ symMesh) (hy : 0 < S.y) (hz : 0 < S.z) :
    symmIndexTable S symMesh
      = (symmIndexSeeds S symMesh).flatMap (orbitRow S symMesh)
    ∧ (symmIndexTable S symMesh).length
        = (symmIndexSeeds S symMesh).length * symMesh.length
    ∧ (∀ i, i < S.x * S.y * S.z → i ∈ symmIndexTable S symMesh)
    ∧ (∀ n, n < (symmIndexSeeds S symMesh).length →
        fullRindex S ((symmIndexSeeds S symMesh).getD n ⟨0, 0, 0⟩)
          ∉ ((symmIndexSeeds S symMesh).take n).flatMap (orbitRow S symMesh)) := by
  have htab : symmIndexTable S symMesh
      = (symmIndexSeeds S symMesh).flatMap (orbitRow S symMesh) := by
    unfold symmIndexTable symmIndexSeeds
    rw [symmRun_table_eq]
    simp
  refine ⟨htab, ?_, ?_, ?_⟩
  · rw [htab, flatMap_orbitRow_length]
  · intro i hi
    obtain ⟨r, hx2, hy2, hz2, hidx⟩ := index_decompose S i hy hz hi
    rw [← hidx]
    unfold symmIndexTable
    exact symmRun_covers S symMesh hid (rowMajorPoints S) [] r
      ((mem_rowMajorPoints S r).mpr ⟨hx2, hy2, hz2⟩) hx2 hy2 hz2
  · intro n hn
    have h := symmRun_fresh S symMesh (rowMajorPoints S) [] n hn
    simpa using h

/-- Witness for C7 on the 2-cubed grid with the two-element group {identity,
swap of the first two axes}: the table is the seed rows, its length is twice
the seed count, the grid point with index 5 appears, and the second seed is not
contained in the first seed's orbit row. -/
theorem c7_witness :
    idMat ∈ [idMat, swapXY]
    ∧ (0 : ℕ) < 2
    ∧ symmIndexTable ⟨2, 2, 2⟩ [idMat, swapXY]
        = (symmIndexSeeds ⟨2, 2, 2⟩ [idMat, swapXY]).flatMap
            (orbitRow ⟨2, 2, 2⟩ [idMat, swapXY])
    ∧ (symmIndexTable ⟨2, 2, 2⟩ [idMat, swapXY]).length
        = (symmIndexSeeds ⟨2, 2, 2⟩ [idMat, swapXY]).length * 2
    ∧ (5 : ℕ) ∈ symmIndexTable ⟨2, 2, 2⟩ [idMat, swapXY]
    ∧ fullRindex ⟨2, 2, 2⟩ ((symmIndexSeeds ⟨2, 2, 2⟩ [idMat, swapXY]).getD 1 ⟨0, 0, 0⟩)
        ∉ ((symmIndexSeeds ⟨2, 2, 2⟩ [idMat, swapXY]).take 1).flatMap
            (orbitRow ⟨2, 2, 2⟩ [idMat, swapXY]) := by
  have h := c7_initSymmIndex_invariants ⟨2, 2, 2⟩ [idMat, swapXY]
    (by decide) (by decide) (by decide)
  exact ⟨by decide, by decide, h.1, h.2.1, h.2.2.1 5 (by decide),
    h.2.2.2 1 (by decide)⟩

/-- Claim C6: when the embedding-center search succeeds it adopts x = iv/S where
iv is the first point, scanned outward in Manhattan shells d = 0,1,2,... around
round(c*S), that every symmetry operation fixes within tolerance — so the
adopted iv is valid, lies within the search radius, and has minimal Manhattan
distance from round(c*S) among all valid points; when it fails (fatal), no
valid point exists within the search radius (S0+S1+S2)/2 + 1. -/
theorem c6_embedCenter_shell_search (close : Vec3 ℚ → Vec3 ℚ → Bool) (S : Vec3 ℕ)
    (sym : List (Mat3 ℤ)) (c : Vec3 ℚ) :
    (∀ iv, embedCenterSearch close S sym c = some iv →
      (∀ m ∈ sym, close (ivToX S iv) (m.mulVecQ (ivToX S iv)) = true)
      ∧ manhattan (iv - roundVec S c) ≤ searchRadius S
      ∧ ∀ q, validCenter close S sym q = true →
          manhattan (iv - roundVec S c) ≤ manhattan (q - roundVec S c))
    ∧ (embedCenterSearch close S sym c = none →
      ∀ q, manhattan (q - roundVec S c) ≤ searchRadius S →
        validCenter close S sym q = false) := by
  constructor
  · intro iv hiv
    unfold embedCenterSearch centerSearch at hiv
    rw [Option.map_eq_some'] at hiv
    obtain ⟨dv, hfind, hiv_eq⟩ := hiv
    obtain ⟨hp, d, hdD, hmem, hbefore⟩ :=
      (find?_shells shellPoints _ (searchRadius S)).1 dv hfind
    have hman : manhattan dv = d := (mem_shellPoints dv d).mp hmem
    subst hiv_eq
    refine ⟨?_, ?_, ?_⟩
    · intro m hm
      have hv : validCenter close S sym (roundVec S c + dv) = true := hp
      unfold validCenter at hv
      exact List.all_eq_true.mp hv m hm
    · rw [vec_add_sub_cancel, hman]
      exact hdD
    · intro q hq
      rw [vec_add_sub_cancel, hman]
      by_contra hlt
      push_neg at hlt
      have hqmem : q - roundVec S c ∈ shellPoints (manhattan (q - roundVec S c)) :=
        (mem_shellPoints _ _).mpr rfl
      have hfalse := hbefore (manhattan (q - roundVec S c)) hlt _ hqmem
      rw [vec_add_sub_self] at hfalse
      rw [hq] at hfalse
      cases hfalse
  · intro hnone q hq
    unfold embedCenterSearch centerSearch at hnone
    rw [Option.map_eq_none'] at hnone
    have h2 := (find?_shells shellPoints _ (searchRadius S)).2 hnone
      (manhattan (q - roundVec S c)) hq _ ((mem_shellPoints _ _).mpr rfl)
    rw [vec_add_sub_self] at h2
    exact h2

/-- Witness for C6: a 2-cubed grid with the identity-only group and center
(1/4,1/4,1/4); the search starts at round(c*S) = (1,1,1), which is already
valid, so it is adopted: it is fixed by the group, lies within the radius, and
its shell distance (zero) is minimal, e.g. against the valid point (0,0,0). -/
theorem c6_witness :
    embedCenterSearch circClose ⟨2, 2, 2⟩ [idMat] ⟨1/4, 1/4, 1/4⟩ = some ⟨1, 1, 1⟩
    ∧ (∀ m ∈ [idMat],
        circClose (ivToX ⟨2, 2, 2⟩ ⟨1, 1, 1⟩)
          (m.mulVecQ (ivToX ⟨2, 2, 2⟩ ⟨1, 1, 1⟩)) = true)
    ∧ manhattan ((⟨1, 1, 1⟩ : Vec3 ℤ) - roundVec ⟨2, 2, 2⟩ ⟨1/4, 1/4, 1/4⟩)
        ≤ searchRadius ⟨2, 2, 2⟩
    ∧ manhattan ((⟨1, 1, 1⟩ : Vec3 ℤ) - roundVec ⟨2, 2, 2⟩ ⟨1/4, 1/4, 1/4⟩)
        ≤ manhattan ((⟨0, 0, 0⟩ : Vec3 ℤ) - roundVec ⟨2, 2, 2⟩ ⟨1/4, 1/4, 1/4⟩) := by
  have h := (c6_embedCenter_shell_search circClose ⟨2, 2, 2⟩ [idMat] ⟨1/4, 1/4, 1/4⟩).1
    ⟨1, 1, 1⟩ (by decide)
  exact ⟨by decide, h.1, h.2.1, h.2.2 ⟨0, 0, 0⟩ (by decide)⟩

/-- Counterexample to claim C3 as stated: a species whose two atoms are swapped
by inversion but carry opposite magnetic moments. checkSymmetries accepts the
inversion matrix (it tests positions only), while the basisReduce acceptance
with zero offset rejects it (moment mismatch), so the two acceptance conditions
are not the same. -/
theorem c3_counterexample :
    checkSymmetriesOK circClose [spC3] [negId] = true
    ∧ basisAccept circClose [spC3] vzero negId = false :=
  ⟨by decide, by decide⟩

/-- Claim C3 (amended): manual-mode validation enforces only the positional part
of the basisReduce acceptance condition with zero offset — it does not consult
magnetic moments; when no species specifies moments, checkSymmetries succeeds
exactly when every supplied matrix satisfies the basisReduce acceptance (any
failing matrix is a fatal error, never dropped). -/
theorem c3_checkSymmetries_positional (close : Vec3 ℚ → Vec3 ℚ → Bool)
    (species : List Species) (sym : List (Mat3 ℤ))
    (hm : ∀ sp ∈ species, sp.moments = []) :
    checkSymmetriesOK close species sym = true
      ↔ ∀ m ∈ sym, basisAccept close species vzero m = true := by
  unfold checkSymmetriesOK
  rw [List.all_eq_true]
  constructor
  · intro h m hmem
    rw [basisAccept_no_moments close m species hm]
    exact h m hmem
  · intro h m hmem
    have h2 := h m hmem
    rw [basisAccept_no_moments close m species hm] at h2
    exact h2

/-- Witness for C3 (amended) on a moment-free species with the inversion
matrix as the manually supplied symmetry. -/
theorem c3_witness :
    (∀ sp ∈ [spW3], sp.moments = [])
    ∧ (checkSymmetriesOK circClose [spW3] [negId] = true
       ↔ ∀ m ∈ [negId], basisAccept circClose [spW3] vzero m = true) :=
  ⟨by decide, c3_checkSymmetries_positional circClose [spW3] [negId] (by decide)⟩

/-- Claim C10: when the candidate scan finds a center whose basis-reduced group
is strictly larger than the origin-reduced one, the move-atoms block terminates
fatally and, before doing so, rewrites every atom position of every species to
pos - rCenter; moreover the adopted rCenter is one of the scanned candidates
and the winning group is exactly the basis reduction about it. -/
theorem c10_moveAtoms_error_path (close : Vec3 ℚ → Vec3 ℚ → Bool)
    (species : List Species) (symLattice : List (Mat3 ℤ))
    (h : (basisReduce close species symLattice vzero).length
          < (pickCenter close species symLattice).2.length) :
    moveAtomsCheck close species symLattice
      = .error (species.map (fun sp =>
          ⟨sp.atpos.map (fun pos => pos - (pickCenter close species symLattice).1),
           sp.moments⟩))
    ∧ (pickCenter close species symLattice).1 ∈ centerCandidates species
    ∧ (pickCenter close species symLattice).2
        = basisReduce close species symLattice (pickCenter close species symLattice).1 := by
  have hbasis := centerFold_basis close species symLattice (centerCandidates species)
      (vzero, basisReduce close species symLattice vzero) rfl
  have hmem := centerFold_mem close species symLattice (centerCandidates species)
      (vzero, basisReduce close species symLattice vzero)
  refine ⟨?_, ?_, hbasis⟩
  · unfold moveAtomsCheck
    rw [if_pos h]
  · rcases hmem with he | he
    · exfalso
      have h2 : (pickCenter close species symLattice).2
          = basisReduce close species symLattice vzero := congrArg Prod.snd he
      rw [h2] at h
      exact lt_irrefl _ h
    · exact he

/-- Witness for C10: a single off-center atom whose lattice admits inversion;
centering on the atom doubles the group, so the block dies after translating
the atom to the origin. -/
theorem c10_witness :
    ((basisReduce circClose [spW10] [idMat, negId] vzero).length
      < (pickCenter circClose [spW10] [idMat, negId]).2.length)
    ∧ moveAtomsCheck circClose [spW10] [idMat, negId]
        = .error ([spW10].map (fun sp =>
            ⟨sp.atpos.map (fun pos => pos - (pickCenter circClose [spW10] [idMat, negId]).1),
             sp.moments⟩))
    ∧ (pickCenter circClose [spW10] [idMat, negId]).1 ∈ centerCandidates [spW10] :=
  ⟨by decide,
    (c10_moveAtoms_error_path circClose [spW10] [idMat, negId] (by decide)).1,
    (c10_moveAtoms_error_path circClose [spW10] [idMat, negId] (by decide)).2.1⟩

end ClaimTheorems

end JdftxSym
